import Mathlib

set_option maxRecDepth 8000

/- Shallow embedding of the email-sequence template compiler of src/app.py
   (process_bold_text, process_italic_text, process_links, convert_variables,
   process_email_sequences; lines 68-155).

   Text is modelled as List Char.  Pandas cell values are modelled by the Cell
   type (Cell.nan is a missing/NaN value, as produced by a blank spreadsheet
   cell; Cell.str a string cell; Cell.int an integer cell).  A spreadsheet row
   is an association list from column name to cell; a column absent from the
   row models a column absent from the uploaded table, so row.get returns the
   supplied default, while a present-but-blank cell is Cell.nan.

   Python primitives used by the source are embedded executably:
   str.replace (pyReplace, including Python's semantics for an empty pattern,
   which inserts the replacement at every character boundary), str.split
   (pySplit), str.strip (pyStrip), int() (pyInt), and the concrete regular
   expressions of the source, each implemented as a left-to-right scanner with
   the lazy/greedy backtracking behaviour of the corresponding pattern.
   Recursions that consume a non-constant number of characters per step carry
   an explicit fuel argument; the wrappers supply fuel equal to the string
   length, which every recursive call strictly decreases below, so the fuel
   never runs out and the definitions stay kernel-computable.

   Python set iteration order (the union set of detected and auxiliary
   emphasis terms) is unspecified in the source; it is modelled here as
   first-occurrence order of the detected-then-auxiliary list (pyDedup).  All
   facts proved below about that union are insensitive to this order. -/

inductive Cell where
  | nan : Cell
  | str : String → Cell
  | int : Int → Cell
deriving DecidableEq

abbrev Row := List (String × Cell)

/-- The backtick character, used by convert_variables' token delimiters. -/
def btk : Char := Char.ofNat 96

/-- Python's notion of whitespace for str.strip / the regex class \s. -/
def pyIsSpace (c : Char) : Bool :=
  (c == ' ') || (c == '\t') || (c == '\n') || (c == '\r') || (c == '\x0b') || (c == '\x0c')

/-- Python str.strip(): remove leading and trailing whitespace. -/
def pyStrip (s : List Char) : List Char :=
  ((s.dropWhile pyIsSpace).reverse.dropWhile pyIsSpace).reverse

/-- Python str.split(sep) for a one-character separator: splitting the empty
    string yields [""], and every separator occurrence opens a new field. -/
def pySplit (sep : Char) : List Char → List (List Char)
  | [] => [[]]
  | c :: t =>
    if c = sep then [] :: pySplit sep t
    else
      match pySplit sep t with
      | h :: r => (c :: h) :: r
      | [] => [[c]]

/-- Boolean prefix test used by the str.replace scanner. -/
def isPre : List Char → List Char → Bool
  | [], _ => true
  | _ :: _, [] => false
  | a :: as, b :: bs => (a == b) && isPre as bs

/-- Python str.replace with an empty pattern inserts the replacement at every
    character boundary; emptyRepl produces the part after the leading copy. -/
def emptyRepl (new : List Char) : List Char → List Char
  | [] => []
  | c :: t => c :: (new ++ emptyRepl new t)

/-- Fuelled scanner for Python str.replace with a non-empty pattern:
    non-overlapping, leftmost-first replacement. -/
def replF (old new : List Char) : Nat → List Char → List Char
  | 0, s => s
  | _ + 1, [] => []
  | f + 1, c :: t =>
    if isPre old (c :: t) then new ++ replF old new f ((c :: t).drop old.length)
    else c :: replF old new f t

/-- Python str.replace(old, new). -/
def pyReplace (s old new : List Char) : List Char :=
  match old with
  | [] => new ++ emptyRepl new s
  | _ :: _ => replF old new s.length s

/-- "pat occurs as a contiguous substring of s". -/
def occursIn (pat s : List Char) : Prop := ∃ a b, a ++ pat ++ b = s

/-- Occurrence count of a character, for the substring-alignment arguments. -/
def cnt (c : Char) : List Char → Nat
  | [] => 0
  | d :: t => (if d = c then 1 else 0) + cnt c t

/-- Python int() on a decimal string literal: strip whitespace, optional sign,
    then a non-empty digit run; anything else is a ValueError (none). -/
def digitsValAux (acc : Nat) : List Char → Option Nat
  | [] => some acc
  | c :: t => if c.isDigit then digitsValAux (acc * 10 + (c.toNat - '0'.toNat)) t else none

def digitsVal : List Char → Option Nat
  | [] => none
  | l => digitsValAux 0 l

def pyIntStr (s : List Char) : Option Int :=
  match pyStrip s with
  | '+' :: r => (digitsVal r).map (fun n => (n : Int))
  | '-' :: r => (digitsVal r).map (fun n => -(n : Int))
  | r => (digitsVal r).map (fun n => (n : Int))

/-- Python int() on a cell value: ints pass through, NaN raises (none),
    strings are parsed as decimal integer literals. -/
def pyInt : Cell → Option Int
  | .int n => some n
  | .nan => none
  | .str s => pyIntStr s.data

/-- pd.isna on a cell. -/
def pyIsna : Cell → Bool
  | .nan => true
  | _ => false

/-- Python str() on a (non-NaN) cell value. -/
def pyStr : Cell → List Char
  | .nan => []
  | .str s => s.data
  | .int n => (toString n).data

/-- Python set() of a list of strings, modelled as first-occurrence dedup. -/
def pyDedupAux (seen : List (List Char)) : List (List Char) → List (List Char)
  | [] => []
  | x :: xs => if x ∈ seen then pyDedupAux seen xs else x :: pyDedupAux (x :: seen) xs

def pyDedup (l : List (List Char)) : List (List Char) := pyDedupAux [] l

/- ===== re.findall(r'\*\*(.*?)\*\*', body): detected bold terms ===== -/

/-- Lazy search for the closing "**": consume non-newline characters until a
    "**" is found (capture, rest-after-close) or a newline/end aborts. -/
def findCloseBB : Nat → List Char → Option (List Char × List Char)
  | 0, _ => none
  | _ + 1, [] => none
  | f + 1, c :: t =>
    if c = '*' ∧ t.head? = some '*' then some ([], t.tail)
    else if c = '\n' then none
    else (findCloseBB f t).map (fun p => (c :: p.1, p.2))

def findAllBoldF : Nat → List Char → List (List Char)
  | 0, _ => []
  | _ + 1, [] => []
  | f + 1, c :: t =>
    if c = '*' then
      match t with
      | '*' :: u =>
        match findCloseBB u.length u with
        | some (cap, r) => cap :: findAllBoldF f r
        | none => findAllBoldF f t
      | _ => findAllBoldF f t
    else findAllBoldF f t

def findAllBold (s : List Char) : List (List Char) := findAllBoldF s.length s

/- ===== re.findall(r'\*(.*?)\*', body): detected italic terms ===== -/

def findCloseB : Nat → List Char → Option (List Char × List Char)
  | 0, _ => none
  | _ + 1, [] => none
  | f + 1, c :: t =>
    if c = '*' then some ([], t)
    else if c = '\n' then none
    else (findCloseB f t).map (fun p => (c :: p.1, p.2))

def findAllItalF : Nat → List Char → List (List Char)
  | 0, _ => []
  | _ + 1, [] => []
  | f + 1, c :: t =>
    if c = '*' then
      match findCloseB t.length t with
      | some (cap, r) => cap :: findAllItalF f r
      | none => findAllItalF f t
    else findAllItalF f t

def findAllItal (s : List Char) : List (List Char) := findAllItalF s.length s

/- ===== process_bold_text (src/app.py lines 68-77) ===== -/

def strongTag (t : List Char) : List Char := "<strong>".data ++ t ++ "</strong>".data

def boldPat (t : List Char) : List Char := '*' :: '*' :: (t ++ ['*', '*'])

/-- The auxiliary term list: comma-split and per-term stripped when the cell
    is not NaN (Python: map(str.strip, bold_texts.split(","))). -/
def auxTerms (texts : Option String) : List (List Char) :=
  match texts with
  | some bt => (pySplit ',' bt.data).map pyStrip
  | none => []

/-- set(detected) | set(aux) when the cell is not NaN, else set(detected). -/
def boldUnion (email_body : List Char) (bold_texts : Option String) : List (List Char) :=
  match bold_texts with
  | some _ => pyDedup (findAllBold email_body ++ auxTerms bold_texts)
  | none => pyDedup (findAllBold email_body)

def process_bold_text (email_body : List Char) (bold_texts : Option String) : List Char :=
  pyReplace
    ((auxTerms bold_texts).foldl (fun b t => pyReplace b t (strongTag t))
      ((boldUnion email_body bold_texts).foldl (fun b t => pyReplace b (boldPat t) (strongTag t))
        email_body))
    ['*', '*'] []

/- ===== process_italic_text (src/app.py lines 79-88) ===== -/

def emTag (t : List Char) : List Char := "<em>".data ++ t ++ "</em>".data

def italPat (t : List Char) : List Char := '*' :: (t ++ ['*'])

def italUnion (email_body : List Char) (italic_texts : Option String) : List (List Char) :=
  match italic_texts with
  | some _ => pyDedup (findAllItal email_body ++ auxTerms italic_texts)
  | none => pyDedup (findAllItal email_body)

def process_italic_text (email_body : List Char) (italic_texts : Option String) : List Char :=
  pyReplace
    ((auxTerms italic_texts).foldl (fun b t => pyReplace b t (emTag t))
      ((italUnion email_body italic_texts).foldl (fun b t => pyReplace b (italPat t) (emTag t))
        email_body))
    ['*'] []

/- ===== process_links (src/app.py lines 90-99) ===== -/

def anchorTag (text url : List Char) : List Char :=
  "<a href=\"".data ++ url ++ "\">".data ++ text ++ "</a>".data

/-- Lazy search for the closing ')' of the url part of [text](url). -/
def findUrlEnd : List Char → Option (List Char × List Char)
  | [] => none
  | c :: t =>
    if c = ')' then some ([], t)
    else if c = '\n' then none
    else (findUrlEnd t).map (fun p => (c :: p.1, p.2))

/-- Attempt to match (.*?)\]\((.*?)\) after an opening '[': lazily extend the
    text capture to each "](" and, if no ')' closes the url there, backtrack
    and keep extending (regex backtracking of the lazy quantifier). -/
def linkMatchAtF : Nat → List Char → Option (List Char × List Char × List Char)
  | 0, _ => none
  | _ + 1, [] => none
  | f + 1, c :: t =>
    if c = ']' ∧ t.head? = some '(' then
      match findUrlEnd t.tail with
      | some (url, rest) => some ([], url, rest)
      | none => (linkMatchAtF f t).map (fun m => (c :: m.1, m.2))
    else if c = '\n' then none
    else (linkMatchAtF f t).map (fun m => (c :: m.1, m.2))

/-- re.sub(r'\[(.*?)\]\((.*?)\)', r'<a href="\2">\1</a>', body). -/
def linkSubF : Nat → List Char → List Char
  | 0, s => s
  | _ + 1, [] => []
  | f + 1, c :: t =>
    if c = '[' then
      match linkMatchAtF t.length t with
      | some (txt, url, rest) => anchorTag txt url ++ linkSubF f rest
      | none => c :: linkSubF f t
    else c :: linkSubF f t

def linkSub (s : List Char) : List Char := linkSubF s.length s

/-- Whether the markdown-link pattern matches anywhere in s. -/
def hasLinkF : Nat → List Char → Bool
  | 0, _ => false
  | _ + 1, [] => false
  | f + 1, c :: t =>
    if c = '[' then
      match linkMatchAtF t.length t with
      | some _ => true
      | none => hasLinkF f t
    else hasLinkF f t

def hasLink (s : List Char) : Bool := hasLinkF s.length s

/-- One auxiliary "text|url" entry: replace bare text when it splits into
    exactly two parts on '|'; malformed entries are silently skipped. -/
def linkEntryApply (b : List Char) (link : List Char) : List Char :=
  match pySplit '|' link with
  | [text, url] => pyReplace b text (anchorTag text url)
  | _ => b

def process_links (email_body : List Char) (link_texts : Option String) : List Char :=
  match link_texts with
  | some lt => ((pySplit ',' lt.data).map pyStrip).foldl linkEntryApply (linkSub email_body)
  | none => linkSub email_body

/- ===== convert_variables (src/app.py lines 101-112) ===== -/

/-- The fixed substitution table, in the source's dict (insertion) order. -/
def replacements : List (List Char × List Char) :=
  [("store/name".data, "{{first_name}}".data),
   ("name".data, "{{first_name}}".data),
   ("SP".data, "{{SP_Selection}}".data),
   ("Brand".data, "{{merchant_name}}".data),
   ("brand".data, "{{merchant_name}}".data),
   ("brand’s".data, "{{merchant_name}}'s".data),
   ("country".data, "{{country}}".data),
   ("first name".data, "{{first_name}}".data),
   ("App".data, "{{app}}".data),
   ("country_name".data, "{{country_name}}".data)]

/-- One table entry applied to a text: replace the backtick-wrapped key. -/
def replStep (acc : List Char) (kv : List Char × List Char) : List Char :=
  pyReplace acc (btk :: (kv.1 ++ [btk])) kv.2

def applyRepl (s : List Char) : List Char := replacements.foldl replStep s

def convert_variables (email_body subject : Cell) : List Char × List Char :=
  (applyRepl (if pyIsna email_body then [] else pyStr email_body),
   applyRepl (if pyIsna subject then [] else pyStr subject))

/- ===== line-break normalisation (src/app.py lines 134-135) ===== -/

/-- Inside the maximal whitespace run following a matched '\n', find the last
    '\n' (the backtracked end of re's greedy \s* followed by \n) and return
    the characters after it; none when the run contains no further '\n'. -/
def findBlankEnd : List Char → Option (List Char)
  | [] => none
  | c :: t =>
    if c = '\n' then some ((findBlankEnd t).getD t)
    else if pyIsSpace c then findBlankEnd t
    else none

/-- re.sub(r'\n\s*\n', '<br><br>', body). -/
def blankSubF : Nat → List Char → List Char
  | 0, s => s
  | _ + 1, [] => []
  | f + 1, c :: t =>
    if c = '\n' then
      match findBlankEnd t with
      | some rest => "<br><br>".data ++ blankSubF f rest
      | none => c :: blankSubF f t
    else c :: blankSubF f t

def blankSub (s : List Char) : List Char := blankSubF s.length s

/-- Lines 134-135: blank-line collapse, then single newlines to <br>. -/
def normalizeBreaks (b : List Char) : List Char :=
  pyReplace (blankSub b) ['\n'] "<br>".data

/- ===== process_email_sequences (src/app.py lines 114-155) ===== -/

def rowLookup (row : Row) (key : String) : Option Cell :=
  (row.find? (fun kv => kv.1 == key)).map (fun kv => kv.2)

/-- pandas Series.get(key, default). -/
def rowGet (row : Row) (key : String) (dflt : Cell) : Cell :=
  (rowLookup row key).getD dflt

/-- An auxiliary-list cell as consumed by the emphasis/link passes: NaN means
    no list (pd.notna is false), a string is the comma-separated list, and a
    non-null non-string raises (Python: AttributeError on .split, thrown
    inside process_*_text; the abort is modelled at the row level). -/
def auxOf : Cell → Except String (Option String)
  | .nan => .ok none
  | .str s => .ok (some s)
  | .int _ => .error "AttributeError: .split on non-string"

/-- Stages 1-4 applied to one row's subject/body (src/app.py lines 130-135);
    returns (email_body, subject) in the source's order. -/
def renderBody (email_body subject : Cell)
    (bold_texts italic_texts link_texts : Option String) : List Char × List Char :=
  (normalizeBreaks
    (process_links
      (process_italic_text
        (process_bold_text (convert_variables email_body subject).1 bold_texts)
        italic_texts)
      link_texts),
   (convert_variables email_body subject).2)

structure SeqVariant where
  subject : List Char
  email_body : List Char
  variant_label : Cell
  variant_distribution_percentage : Int
deriving DecidableEq

structure SequenceStep where
  seq_number : Int
  delay_in_days : Int
  seq_variants : List SeqVariant
deriving DecidableEq

/-- One row of the source loop (lines 120-135): coerce seq_number and
    seq_delay_details with int(), take the remaining columns with their
    defaults, render the body, and build the variant dict; any Python
    exception on the way is an error aborting the whole compile. -/
def processRow (row : Row) : Except String (Int × Int × SeqVariant) :=
  match rowLookup row "seq_number" with
  | none => .error "KeyError: seq_number"
  | some c =>
    match pyInt c with
    | none => .error "ValueError: invalid seq_number"
    | some seq_number =>
      match pyInt (rowGet row "seq_delay_details" (Cell.int 0)) with
      | none => .error "ValueError: invalid seq_delay_details"
      | some seq_delay =>
        match auxOf (rowGet row "bold_texts" (Cell.str "")),
              auxOf (rowGet row "italic_texts" (Cell.str "")),
              auxOf (rowGet row "link_texts" (Cell.str "")) with
        | Except.ok bold_texts, Except.ok italic_texts, Except.ok link_texts =>
          Except.ok (seq_number, seq_delay,
            ⟨(renderBody (rowGet row "email_body" (Cell.str ""))
                (rowGet row "subject" (Cell.str ""))
                bold_texts italic_texts link_texts).2,
             (renderBody (rowGet row "email_body" (Cell.str ""))
                (rowGet row "subject" (Cell.str ""))
                bold_texts italic_texts link_texts).1,
             rowGet row "variant_label" (Cell.str ""),
             100⟩)
        | Except.error e, _, _ => .error e
        | _, Except.error e, _ => .error e
        | _, _, Except.error e => .error e

/-- sequences_dict update (lines 137-149): on first encounter of seq_number
    create the step with its delay fixed; afterwards only append the variant
    (a later row's delay never overrides).  Insertion order is preserved, as
    Python dicts do. -/
def insertRow (acc : List SequenceStep) (n delay : Int) (v : SeqVariant) : List SequenceStep :=
  if acc.any (fun s => s.seq_number == n) then
    acc.map (fun s =>
      if s.seq_number == n then ⟨s.seq_number, s.delay_in_days, s.seq_variants ++ [v]⟩ else s)
  else
    acc ++ [⟨n, delay, [v]⟩]

def compileRows : List Row → List SequenceStep → Except String (List SequenceStep)
  | [], acc => .ok acc
  | r :: rs, acc =>
    match processRow r with
    | .error e => .error e
    | .ok (n, d, v) => compileRows rs (insertRow acc n d v)

/-- process_email_sequences: the whole loop runs under one try/except; any
    exception is reported and the function returns [] (lines 153-155). -/
def process_email_sequences (rows : List Row) : List SequenceStep :=
  match compileRows rows [] with
  | .ok l => l
  | .error _ => []

/-- Shape projection used by aggregate-level statements: sequence number,
    delay, and variant count of a step. -/
def stepSig (s : SequenceStep) : Int × Int × Nat :=
  (s.seq_number, s.delay_in_days, s.seq_variants.length)

/-- A row whose seq_number column is missing or whose value int() rejects. -/
def seqNumberBad (r : Row) : Bool :=
  match rowLookup r "seq_number" with
  | none => true
  | some c => (pyInt c).isNone

/- ===================== Claim theorems ===================== -/

/-- C4: three rows — seq 1 (delay 3), seq 1 (delay 7), seq 2 (delay 1) —
    compile to exactly two SequenceStep entries in first-encounter order;
    step 1 keeps delay 3 (the second row's 7 is ignored) and carries its two
    variants in row order, step 2 carries one variant, and every variant has
    distribution percentage 100. -/
theorem C4_grouping :
    process_email_sequences
      [[("seq_number", Cell.int 1), ("seq_delay_details", Cell.int 3),
        ("variant_label", Cell.str "A"), ("subject", Cell.str "s1"),
        ("email_body", Cell.str "b1"), ("bold_texts", Cell.nan),
        ("italic_texts", Cell.nan), ("link_texts", Cell.nan)],
       [("seq_number", Cell.int 1), ("seq_delay_details", Cell.int 7),
        ("variant_label", Cell.str "B"), ("subject", Cell.str "s2"),
        ("email_body", Cell.str "b2"), ("bold_texts", Cell.nan),
        ("italic_texts", Cell.nan), ("link_texts", Cell.nan)],
       [("seq_number", Cell.int 2), ("seq_delay_details", Cell.int 1),
        ("variant_label", Cell.str "C"), ("subject", Cell.str "s3"),
        ("email_body", Cell.str "b3"), ("bold_texts", Cell.nan),
        ("italic_texts", Cell.nan), ("link_texts", Cell.nan)]] =
    [⟨1, 3, [⟨"s1".data, "b1".data, Cell.str "A", 100⟩,
             ⟨"s2".data, "b2".data, Cell.str "B", 100⟩]⟩,
     ⟨2, 1, [⟨"s3".data, "b3".data, Cell.str "C", 100⟩]⟩] := by decide

/-- C6: the bold pass followed by the italic pass, with no auxiliary lists,
    turns "**a** *b*" into "<strong>a</strong> <em>b</em>", and the result
    contains no residual asterisk. -/
theorem C6_bold_then_italic :
    process_italic_text (process_bold_text "**a** *b*".data none) none =
      "<strong>a</strong> <em>b</em>".data ∧
    '*' ∉ process_italic_text (process_bold_text "**a** *b*".data none) none := by decide

/-- C8: the line-break normalizer collapses blank-line runs to one
    "<br><br>" first and then converts remaining single newlines to "<br>";
    in particular "line1\n\nline2\nline3" becomes
    "line1<br><br>line2<br>line3", and a run with intervening whitespace
    also collapses to a single "<br><br>". -/
theorem C8_line_breaks :
    normalizeBreaks "line1\n\nline2\nline3".data = "line1<br><br>line2<br>line3".data ∧
    normalizeBreaks "a\n \n\nb".data = "a<br><br>b".data := by decide

/-- C2 counterexample: a row whose seq_number is 0 — not a positive integer —
    is accepted, the compile succeeds, and a SequenceStep with seq_number 0,
    delay 0 and one variant is produced, contradicting the claim that such a
    row is a hard error producing no SequenceStep. -/
theorem C2_cex :
    (process_email_sequences [[("seq_number", Cell.int 0)]]).map stepSig = [(0, 0, 1)] := by
  decide

/-- C2 amended: step_number must be coercible to an integer, but positivity
    is not checked — every integer (including zero and negatives) yields a
    SequenceStep with that number, default delay 0 and one variant; a value
    int() rejects is a hard error aborting the whole compile to []. -/
theorem C2_amended :
    (∀ n : Int,
      (process_email_sequences [[("seq_number", Cell.int n)]]).map stepSig = [(n, 0, 1)]) ∧
    process_email_sequences [[("seq_number", Cell.str "oops")]] = [] :=
  ⟨fun _ => rfl, rfl⟩

/-- C7 counterexample: a non-null, non-string body (the integer cell 5) is
    not normalized to the empty string — convert_variables coerces it to
    "5" — contradicting the claim that any not-a-string input becomes "". -/
theorem C7_cex :
    (convert_variables (Cell.int 5) Cell.nan).1 = "5".data ∧
    (convert_variables (Cell.int 5) Cell.nan).1 ≠ [] := by decide

/-- C7 amended: a missing/NaN subject or body is normalized to the empty
    string and is never an error; a non-null value that is not a string is
    instead coerced with str() (e.g. 5 to "5", -7 to "-7"); the stage is a
    pure function returning the two rewritten strings. -/
theorem C7_amended :
    convert_variables Cell.nan Cell.nan = ([], []) ∧
    convert_variables (Cell.int 5) Cell.nan = ("5".data, []) ∧
    convert_variables Cell.nan (Cell.int (-7)) = ([], "-7".data) := by decide

/-- C1 counterexample: a blank (empty-string) auxiliary bold list is not
    treated like an absent one — on body "a" the blank list routes the empty
    term through the literal-replacement pass, producing
    "<strong></strong>a<strong></strong>", while the absent list leaves "a"
    unchanged. -/
theorem C1_cex :
    process_bold_text "a".data (some "") ≠ process_bold_text "a".data none ∧
    process_bold_text "a".data (some "") = "<strong></strong>a<strong></strong>".data ∧
    process_bold_text "a".data none = "a".data := by decide

/-- C5 counterexample: in the body "`name`SP`" the backtick-wrapped token SP
    occurs (sharing a backtick with the occurrence of token name), yet the
    output "{{first_name}}SP`" does not substitute {{SP_Selection}} and keeps
    a leftover backtick, contradicting "every occurrence of backtick-wrapped
    T ... is replaced ... with no leftover backticks". -/
theorem C5_cex :
    (convert_variables (Cell.str "`name`SP`") (Cell.str "")).1 = "{{first_name}}SP`".data ∧
    btk ∈ (convert_variables (Cell.str "`name`SP`") (Cell.str "")).1 := by decide

/- ===================== str.replace lemmas ===================== -/

theorem isPre_iff : ∀ p s : List Char, isPre p s = true ↔ ∃ t, p ++ t = s := by
  intro p
  induction p with
  | nil => intro s; simp [isPre]
  | cons a as ih =>
    intro s
    cases s with
    | nil => simp [isPre]
    | cons b bs =>
      simp only [isPre, Bool.and_eq_true, beq_iff_eq, ih bs, List.cons_append,
        List.cons.injEq]
      constructor
      · rintro ⟨rfl, t, rfl⟩; exact ⟨t, rfl, rfl⟩
      · rintro ⟨t, rfl, rfl⟩; exact ⟨rfl, t, rfl⟩

theorem occursIn_cons {pat t : List Char} (c : Char) (h : occursIn pat t) :
    occursIn pat (c :: t) := by
  obtain ⟨a, b, hab⟩ := h
  exact ⟨c :: a, b, by simp [hab]⟩

theorem occursIn_of_isPre {pat s : List Char} (h : isPre pat s = true) : occursIn pat s := by
  obtain ⟨t, ht⟩ := (isPre_iff pat s).mp h
  exact ⟨[], t, by simp [ht]⟩

theorem occursIn_mem {pat s : List Char} {c : Char} (h : occursIn pat s) (hc : c ∈ pat) :
    c ∈ s := by
  obtain ⟨a, b, rfl⟩ := h
  simp [hc]

theorem replF_not_occurs {old : List Char} (new : List Char) (ho : old ≠ []) :
    ∀ (f : Nat) (s : List Char), ¬ occursIn old s → replF old new f s = s := by
  intro f
  induction f with
  | zero => intro s _; rfl
  | succ f ih =>
    intro s hs
    cases s with
    | nil => rfl
    | cons c t =>
      have hpre : isPre old (c :: t) = false := by
        cases hp : isPre old (c :: t)
        · rfl
        · exact absurd (occursIn_of_isPre hp) hs
      simp only [replF, hpre, Bool.false_eq_true, if_false]
      exact congrArg (c :: ·) (ih t (fun h => hs (occursIn_cons c h)))

theorem pyReplace_not_occurs {s old : List Char} (new : List Char) (ho : old ≠ [])
    (h : ¬ occursIn old s) : pyReplace s old new = s := by
  cases old with
  | nil => exact absurd rfl ho
  | cons a as => exact replF_not_occurs new ho s.length s h

theorem pyReplace_not_mem {s old : List Char} (new : List Char) {c : Char}
    (hc : c ∈ old) (hs : c ∉ s) : pyReplace s old new = s := by
  refine pyReplace_not_occurs new (by rintro rfl; exact absurd hc (List.not_mem_nil c)) ?_
  exact fun h => hs (occursIn_mem h hc)

theorem replF_fuel {old : List Char} (new : List Char) (ho : old ≠ []) :
    ∀ (f g : Nat) (s : List Char), s.length ≤ f → s.length ≤ g →
      replF old new f s = replF old new g s := by
  intro f
  induction f with
  | zero =>
    intro g s hf _
    have : s = [] := List.eq_nil_of_length_eq_zero (Nat.le_zero.mp hf)
    subst this
    cases g with
    | zero => rfl
    | succ g => rfl
  | succ f ih =>
    intro g s hf hg
    cases s with
    | nil =>
      cases g with
      | zero => rfl
      | succ g => rfl
    | cons c t =>
      cases g with
      | zero => simp at hg
      | succ g =>
        have hold1 : 1 ≤ old.length := by
          cases old with
          | nil => exact absurd rfl ho
          | cons a as => simp
        have htf : t.length ≤ f := Nat.le_of_succ_le_succ (by simpa using hf)
        have htg : t.length ≤ g := Nat.le_of_succ_le_succ (by simpa using hg)
        simp only [replF]
        cases hp : isPre old (c :: t) with
        | true =>
          simp only [hp, if_true]
          have hdf : ((c :: t).drop old.length).length ≤ f := by
            have : ((c :: t).drop old.length).length = (c :: t).length - old.length := by
              simp
            omega
          have hdg : ((c :: t).drop old.length).length ≤ g := by
            have : ((c :: t).drop old.length).length = (c :: t).length - old.length := by
              simp
            omega
          exact congrArg (new ++ ·) (ih g _ hdf hdg)
        | false =>
          simp only [hp, Bool.false_eq_true, if_false]
          exact congrArg (c :: ·) (ih g t htf htg)

theorem pyReplace_cons_ne {h' : Char} {k : List Char} (new : List Char) {c : Char}
    (t : List Char) (hne : c ≠ h') :
    pyReplace (c :: t) (h' :: k) new = c :: pyReplace t (h' :: k) new := by
  show replF (h' :: k) new (t.length + 1) (c :: t) = c :: replF (h' :: k) new t.length t
  have hbeq : (h' == c) = false := beq_eq_false_iff_ne.mpr (fun h => hne h.symm)
  have hpre : isPre (h' :: k) (c :: t) = false := by
    simp [isPre, hbeq]
  simp [replF, hpre]

theorem pyReplace_append_left {h' : Char} {k p : List Char} (new : List Char)
    (hp : h' ∉ p) :
    ∀ s, pyReplace (p ++ s) (h' :: k) new = p ++ pyReplace s (h' :: k) new := by
  induction p with
  | nil => intro s; simp
  | cons c p' ih =>
    intro s
    have hc : c ≠ h' := by
      intro h; exact hp (h ▸ List.mem_cons_self c p')
    have hp' : h' ∉ p' := fun h => hp (List.mem_cons_of_mem c h)
    rw [List.cons_append, pyReplace_cons_ne new (p' ++ s) hc, ih hp' s, List.cons_append]

theorem pyReplace_hit {old : List Char} (ho : old ≠ []) (q new : List Char) :
    pyReplace (old ++ q) old new = new ++ pyReplace q old new := by
  cases old with
  | nil => exact absurd rfl ho
  | cons a as =>
    show replF (a :: as) new ((a :: as) ++ q).length ((a :: as) ++ q) = _
    have hlen : ((a :: as) ++ q).length = (as ++ q).length + 1 := by simp
    rw [hlen, List.cons_append]
    have hpre : isPre (a :: as) (a :: (as ++ q)) = true := by
      rw [isPre_iff]
      exact ⟨q, by simp⟩
    simp only [replF, hpre, if_true]
    have hdrop : ((a :: (as ++ q)).drop (a :: as).length) = q := by
      rw [← List.cons_append, List.drop_left]
    rw [hdrop]
    congr 1
    exact replF_fuel new (by simp) _ _ q (by simp) (Nat.le_refl _)

/- ===================== substring alignment lemmas ===================== -/

theorem cnt_append (c : Char) : ∀ a b : List Char, cnt c (a ++ b) = cnt c a + cnt c b := by
  intro a b
  induction a with
  | nil => simp [cnt]
  | cons d t ih => simp [cnt, ih, Nat.add_assoc]

theorem cnt_eq_zero {c : Char} : ∀ {l : List Char}, cnt c l = 0 ↔ c ∉ l := by
  intro l
  induction l with
  | nil => simp [cnt]
  | cons d t ih =>
    by_cases hd : d = c
    · subst hd; simp [cnt]
    · simp [cnt, hd, ih, Ne.symm hd]

theorem sepSplit (sep : Char) :
    ∀ (x y u v : List Char), sep ∉ x → sep ∉ y →
      x ++ sep :: u = y ++ sep :: v → x = y ∧ u = v := by
  intro x
  induction x with
  | nil =>
    intro y u v _ hy h
    cases y with
    | nil => simpa using h
    | cons c y' =>
      simp only [List.nil_append, List.cons_append, List.cons.injEq] at h
      exact absurd (h.1 ▸ List.mem_cons_self c y') hy
  | cons c x' ih =>
    intro y u v hx hy h
    cases y with
    | nil =>
      simp only [List.cons_append, List.nil_append, List.cons.injEq] at h
      exact absurd (h.1 ▸ List.mem_cons_self c x') hx
    | cons d y' =>
      simp only [List.cons_append, List.cons.injEq] at h
      obtain ⟨rfl, h2⟩ := h
      have := ih y' u v (fun hm => hx (List.mem_cons_of_mem c hm))
        (fun hm => hy (List.mem_cons_of_mem c hm)) h2
      exact ⟨by rw [this.1], this.2⟩

theorem two_sep {sep : Char} {a b p q k w : List Char}
    (hk : sep ∉ k) (hw : sep ∉ w) (hp : sep ∉ p) (hq : sep ∉ q)
    (h : a ++ (sep :: (k ++ [sep])) ++ b = p ++ (sep :: (w ++ [sep])) ++ q) : k = w := by
  have hcnt := congrArg (cnt sep) h
  simp only [cnt_append, cnt, if_pos rfl, cnt_eq_zero.mpr hk, cnt_eq_zero.mpr hw,
    cnt_eq_zero.mpr hp, cnt_eq_zero.mpr hq] at hcnt
  have ha : sep ∉ a := cnt_eq_zero.mp (by omega)
  have h' : a ++ sep :: (k ++ sep :: b) = p ++ sep :: (w ++ sep :: q) := by
    simpa [List.append_assoc] using h
  obtain ⟨rfl, h2⟩ := sepSplit sep a p _ _ ha hp h'
  exact (sepSplit sep k w _ _ hk hw h2).1

/- ===================== convert_variables lemmas ===================== -/

theorem skipKey {k T p q : List Char} (v : List Char)
    (hk : btk ∉ k) (hT : btk ∉ T) (hp : btk ∉ p) (hq : btk ∉ q) (hne : k ≠ T) :
    pyReplace (p ++ btk :: (T ++ btk :: q)) (btk :: (k ++ [btk])) v =
      p ++ btk :: (T ++ btk :: q) := by
  refine pyReplace_not_occurs v (by simp) ?_
  rintro ⟨a, b, hab⟩
  have h' : a ++ (btk :: (k ++ [btk])) ++ b = p ++ (btk :: (T ++ [btk])) ++ q := by
    simpa [List.append_assoc] using hab
  exact hne (two_sep hk hT hp hq h')

theorem hitKey {T p q : List Char} (v : List Char) (hp : btk ∉ p) (hq : btk ∉ q) :
    pyReplace (p ++ btk :: (T ++ btk :: q)) (btk :: (T ++ [btk])) v = p ++ v ++ q := by
  have hs : p ++ btk :: (T ++ btk :: q) = p ++ ((btk :: (T ++ [btk])) ++ q) := by
    simp [List.append_assoc]
  rw [hs, pyReplace_append_left v hp, pyReplace_hit (by simp) q v,
    pyReplace_not_occurs v (by simp)
      (fun h => hq (occursIn_mem h (List.mem_cons_self btk (T ++ [btk])))),
    List.append_assoc]

theorem foldClean (L : List (List Char × List Char)) :
    ∀ s : List Char, btk ∉ s → L.foldl replStep s = s := by
  induction L with
  | nil => intro s _; rfl
  | cons kv L' ih =>
    intro s hs
    have hstep : replStep s kv = s :=
      pyReplace_not_mem kv.2 (List.mem_cons_self btk (kv.1 ++ [btk])) hs
    simpa [List.foldl_cons, hstep] using ih s hs

theorem foldSkip (L : List (List Char × List Char)) (T p q : List Char)
    (hT : btk ∉ T) (hp : btk ∉ p) (hq : btk ∉ q)
    (hL : ∀ kv ∈ L, btk ∉ kv.1 ∧ kv.1 ≠ T) :
    L.foldl replStep (p ++ btk :: (T ++ btk :: q)) = p ++ btk :: (T ++ btk :: q) := by
  induction L with
  | nil => rfl
  | cons kv L' ih =>
    have hkv := hL kv (List.mem_cons_self kv L')
    have hstep : replStep (p ++ btk :: (T ++ btk :: q)) kv = p ++ btk :: (T ++ btk :: q) :=
      skipKey kv.2 hkv.1 hT hp hq hkv.2
    simpa [List.foldl_cons, hstep] using
      ih (fun kv' hkv' => hL kv' (List.mem_cons_of_mem kv hkv'))

theorem memSplit {α : Type} {a : α} : ∀ {l : List α}, a ∈ l →
    ∃ s t : List α, l = s ++ a :: t := by
  intro l h
  induction l with
  | nil => exact absurd h (List.not_mem_nil a)
  | cons x xs ih =>
    rcases List.mem_cons.mp h with rfl | hm
    · exact ⟨[], xs, rfl⟩
    · obtain ⟨s, t, rfl⟩ := ih hm
      exact ⟨x :: s, t, rfl⟩

theorem applyRepl_token {T V p q : List Char} (hTV : (T, V) ∈ replacements)
    (hp : btk ∉ p) (hq : btk ∉ q) :
    applyRepl (p ++ btk :: (T ++ btk :: q)) = p ++ V ++ q := by
  have hkeys : ∀ kv ∈ replacements, btk ∉ kv.1 := by decide
  have hvals : ∀ kv ∈ replacements, btk ∉ kv.2 := by decide
  have hnd : (replacements.map Prod.fst).Nodup := by decide
  have hT : btk ∉ T := hkeys (T, V) hTV
  obtain ⟨L₁, L₂, hsplit⟩ := memSplit hTV
  have hTnotin : T ∉ L₁.map Prod.fst := by
    intro hmem
    have hmap : (replacements.map Prod.fst) =
        L₁.map Prod.fst ++ T :: L₂.map Prod.fst := by simp [hsplit]
    rw [hmap] at hnd
    exact (List.nodup_append.mp hnd).2.2 hmem (List.mem_cons_self T _)
  unfold applyRepl
  rw [hsplit, List.foldl_append]
  rw [foldSkip L₁ T p q hT hp hq (fun kv hkv =>
    ⟨hkeys kv (hsplit ▸ List.mem_append_left _ hkv),
     fun heq => hTnotin (heq ▸ List.mem_map_of_mem Prod.fst hkv)⟩)]
  show L₂.foldl replStep (replStep (p ++ btk :: (T ++ btk :: q)) (T, V)) = p ++ V ++ q
  rw [show replStep (p ++ btk :: (T ++ btk :: q)) (T, V) = p ++ V ++ q from
    hitKey V hp hq]
  refine foldClean L₂ _ ?_
  simp only [List.mem_append]
  rintro (⟨h | h⟩ | h)
  · exact hp h
  · exact hvals (T, V) hTV h
  · exact hq h

theorem applyRepl_unrecognized {w p q : List Char} (hw : btk ∉ w) (hp : btk ∉ p)
    (hq : btk ∉ q) (hnot : w ∉ replacements.map Prod.fst) :
    applyRepl (p ++ btk :: (w ++ btk :: q)) = p ++ btk :: (w ++ btk :: q) := by
  have hkeys : ∀ kv ∈ replacements, btk ∉ kv.1 := by decide
  exact foldSkip replacements w p q hw hp hq (fun kv hkv =>
    ⟨hkeys kv hkv, fun heq => hnot (heq ▸ List.mem_map_of_mem Prod.fst hkv)⟩)

/-- C5 amended: each token is replaced sequentially in table order with
    non-overlapping left-to-right replacement, so the claim holds whenever a
    token occurrence does not share a backtick with another occurrence: a
    backtick-wrapped recognized token standing in otherwise backtick-free
    text is replaced, in both subject and body, by exactly the mapped
    merge-field string with no leftover backticks, and backtick-wrapped text
    that is not a recognized token is left entirely unmodified there. -/
theorem C5_amended :
    (∀ T V p q : List Char, (T, V) ∈ replacements → btk ∉ p → btk ∉ q →
      convert_variables (Cell.str (String.mk (p ++ btk :: (T ++ btk :: q))))
        (Cell.str (String.mk (p ++ btk :: (T ++ btk :: q)))) =
      (p ++ V ++ q, p ++ V ++ q)) ∧
    (∀ w p q : List Char, btk ∉ w → btk ∉ p → btk ∉ q →
      w ∉ replacements.map Prod.fst →
      convert_variables (Cell.str (String.mk (p ++ btk :: (w ++ btk :: q))))
        (Cell.str (String.mk (p ++ btk :: (w ++ btk :: q)))) =
      (p ++ btk :: (w ++ btk :: q), p ++ btk :: (w ++ btk :: q))) := by
  constructor
  · intro T V p q hTV hp hq
    show (applyRepl (p ++ btk :: (T ++ btk :: q)),
          applyRepl (p ++ btk :: (T ++ btk :: q))) = _
    rw [applyRepl_token hTV hp hq]
  · intro w p q hw hp hq hnot
    show (applyRepl (p ++ btk :: (w ++ btk :: q)),
          applyRepl (p ++ btk :: (w ++ btk :: q))) = _
    rw [applyRepl_unrecognized hw hp hq hnot]

/-- C5 amended, witness: the recognized token "name" inside backtick-free
    context is substituted exactly, and the unrecognized token "xyz" is left
    untouched. -/
theorem C5_amended_witness :
    convert_variables
      (Cell.str (String.mk ("Hi ".data ++ btk :: ("name".data ++ btk :: "!".data))))
      (Cell.str (String.mk ("Hi ".data ++ btk :: ("name".data ++ btk :: "!".data)))) =
      ("Hi ".data ++ "{{first_name}}".data ++ "!".data,
       "Hi ".data ++ "{{first_name}}".data ++ "!".data) ∧
    convert_variables
      (Cell.str (String.mk ("a ".data ++ btk :: ("xyz".data ++ btk :: " b".data))))
      (Cell.str (String.mk ("a ".data ++ btk :: ("xyz".data ++ btk :: " b".data)))) =
      ("a ".data ++ btk :: ("xyz".data ++ btk :: " b".data),
       "a ".data ++ btk :: ("xyz".data ++ btk :: " b".data)) :=
  ⟨C5_amended.1 "name".data "{{first_name}}".data "Hi ".data "!".data
      (by decide) (by decide) (by decide),
   C5_amended.2 "xyz".data "a ".data " b".data
      (by decide) (by decide) (by decide) (by decide)⟩

/- ===================== emphasis rewriter lemmas ===================== -/

theorem findAllBoldF_nil : ∀ (f : Nat) (s : List Char), '*' ∉ s → findAllBoldF f s = [] := by
  intro f
  induction f with
  | zero => intro s _; rfl
  | succ f ih =>
    intro s hs
    cases s with
    | nil => rfl
    | cons c t =>
      have hc : ¬ c = '*' := fun h => hs (h ▸ List.mem_cons_self c t)
      simp only [findAllBoldF, if_neg hc]
      exact ih t (fun h => hs (List.mem_cons_of_mem c h))

theorem findAllItalF_nil : ∀ (f : Nat) (s : List Char), '*' ∉ s → findAllItalF f s = [] := by
  intro f
  induction f with
  | zero => intro s _; rfl
  | succ f ih =>
    intro s hs
    cases s with
    | nil => rfl
    | cons c t =>
      have hc : ¬ c = '*' := fun h => hs (h ▸ List.mem_cons_self c t)
      simp only [findAllItalF, if_neg hc]
      exact ih t (fun h => hs (List.mem_cons_of_mem c h))

theorem emptyRepl_not_mem {c : Char} {v : List Char} (hv : c ∉ v) :
    ∀ {s : List Char}, c ∉ s → c ∉ emptyRepl v s := by
  intro s
  induction s with
  | nil => intro _; simp [emptyRepl]
  | cons d t ih =>
    intro hs
    have hd : c ≠ d := fun h => hs (h ▸ List.mem_cons_self d t)
    have ht : c ∉ t := fun h => hs (List.mem_cons_of_mem d h)
    simp only [emptyRepl, List.mem_cons, List.mem_append]
    rintro (h | h | h)
    · exact hd h
    · exact hv h
    · exact ih ht h

theorem process_bold_text_none_id {s : List Char} (h : '*' ∉ s) :
    process_bold_text s none = s := by
  have hdet : findAllBold s = [] := findAllBoldF_nil _ _ h
  simp only [process_bold_text, auxTerms, boldUnion, hdet, List.foldl_nil]
  show pyReplace (List.foldl _ s (pyDedup [])) ['*', '*'] [] = s
  show pyReplace s ['*', '*'] [] = s
  exact pyReplace_not_mem [] (List.mem_cons_self '*' ['*']) h

theorem process_italic_text_none_id {s : List Char} (h : '*' ∉ s) :
    process_italic_text s none = s := by
  have hdet : findAllItal s = [] := findAllItalF_nil _ _ h
  simp only [process_italic_text, auxTerms, italUnion, hdet, List.foldl_nil]
  show pyReplace (List.foldl _ s (pyDedup [])) ['*'] [] = s
  show pyReplace s ['*'] [] = s
  exact pyReplace_not_mem [] (List.mem_cons_self '*' []) h

theorem process_bold_text_blank {s : List Char} (h : '*' ∉ s) :
    process_bold_text s (some "") = strongTag [] ++ emptyRepl (strongTag []) s := by
  have hdet : findAllBold s = [] := findAllBoldF_nil _ _ h
  have haux : auxTerms (some "") = [[]] := by decide
  have hstar : '*' ∉ strongTag [] ++ emptyRepl (strongTag []) s := by
    simp only [List.mem_append]
    rintro (hh | hh)
    · exact absurd hh (by decide)
    · exact emptyRepl_not_mem (by decide) h hh
  simp only [process_bold_text, haux, boldUnion, hdet, List.nil_append]
  show pyReplace
    (List.foldl _ (List.foldl _ s (pyDedup [[]])) [[]]) ['*', '*'] [] = _
  show pyReplace
    (List.foldl (fun b t => pyReplace b t (strongTag t))
      (pyReplace s (boldPat []) (strongTag [])) [[]]) ['*', '*'] [] = _
  rw [pyReplace_not_mem (strongTag []) (show '*' ∈ boldPat [] from List.mem_cons_self _ _) h]
  show pyReplace (pyReplace s [] (strongTag [])) ['*', '*'] [] = _
  show pyReplace (strongTag [] ++ emptyRepl (strongTag []) s) ['*', '*'] [] = _
  exact pyReplace_not_mem [] (List.mem_cons_self '*' ['*']) hstar

theorem process_italic_text_blank {s : List Char} (h : '*' ∉ s) :
    process_italic_text s (some "") = emTag [] ++ emptyRepl (emTag []) s := by
  have hdet : findAllItal s = [] := findAllItalF_nil _ _ h
  have haux : auxTerms (some "") = [[]] := by decide
  have hstar : '*' ∉ emTag [] ++ emptyRepl (emTag []) s := by
    simp only [List.mem_append]
    rintro (hh | hh)
    · exact absurd hh (by decide)
    · exact emptyRepl_not_mem (by decide) h hh
  simp only [process_italic_text, haux, italUnion, hdet, List.nil_append]
  show pyReplace
    (List.foldl _ (List.foldl _ s (pyDedup [[]])) [[]]) ['*'] [] = _
  show pyReplace
    (List.foldl (fun b t => pyReplace b t (emTag t))
      (pyReplace s (italPat []) (emTag [])) [[]]) ['*'] [] = _
  rw [pyReplace_not_mem (emTag []) (show '*' ∈ italPat [] from List.mem_cons_self _ _) h]
  show pyReplace (pyReplace s [] (emTag [])) ['*'] [] = _
  show pyReplace (emTag [] ++ emptyRepl (emTag []) s) ['*'] [] = _
  exact pyReplace_not_mem [] (List.mem_cons_self '*' []) hstar

/-- C1 amended: an absent (NaN) auxiliary list is treated as an empty list —
    on an asterisk-free body both emphasis passes return the body unchanged —
    but a blank (empty-string) auxiliary list is not equivalent to an absent
    one: its single empty term makes the literal-replacement step insert an
    empty emphasis tag at every character boundary of the body. -/
theorem C1_amended (body : List Char) (h : '*' ∉ body) :
    process_bold_text body none = body ∧
    process_italic_text body none = body ∧
    process_bold_text body (some "") = strongTag [] ++ emptyRepl (strongTag []) body ∧
    process_italic_text body (some "") = emTag [] ++ emptyRepl (emTag []) body :=
  ⟨process_bold_text_none_id h, process_italic_text_none_id h,
   process_bold_text_blank h, process_italic_text_blank h⟩

/-- C1 amended, witness at body "ab". -/
theorem C1_amended_witness :
    process_bold_text "ab".data none = "ab".data ∧
    process_italic_text "ab".data none = "ab".data ∧
    process_bold_text "ab".data (some "") =
      strongTag [] ++ emptyRepl (strongTag []) "ab".data ∧
    process_italic_text "ab".data (some "") =
      emTag [] ++ emptyRepl (emTag []) "ab".data :=
  C1_amended "ab".data (by decide)

/- ===================== link / line-break pass lemmas ===================== -/

theorem linkSubF_id : ∀ (f : Nat) (s : List Char), hasLinkF f s = false → linkSubF f s = s := by
  intro f
  induction f with
  | zero => intro s _; rfl
  | succ f ih =>
    intro s hs
    cases s with
    | nil => rfl
    | cons c t =>
      by_cases hc : c = '['
      · subst hc
        cases hm : linkMatchAtF t.length t with
        | some m =>
          simp [hasLinkF, hm] at hs
        | none =>
          have ht : hasLinkF f t = false := by simpa [hasLinkF, hm] using hs
          simp only [linkSubF, if_pos rfl, hm]
          exact congrArg ('[' :: ·) (ih t ht)
      · have ht : hasLinkF f t = false := by simpa [hasLinkF, hc] using hs
        simp only [linkSubF, if_neg hc]
        exact congrArg (c :: ·) (ih t ht)

theorem process_links_none_id {s : List Char} (h : hasLink s = false) :
    process_links s none = s :=
  linkSubF_id s.length s h

theorem blankSubF_id : ∀ (f : Nat) (s : List Char), '\n' ∉ s → blankSubF f s = s := by
  intro f
  induction f with
  | zero => intro s _; rfl
  | succ f ih =>
    intro s hs
    cases s with
    | nil => rfl
    | cons c t =>
      have hc : ¬ c = '\n' := fun h => hs (h ▸ List.mem_cons_self c t)
      simp only [blankSubF, if_neg hc]
      exact congrArg (c :: ·) (ih t (fun h => hs (List.mem_cons_of_mem c h)))

theorem normalizeBreaks_id {s : List Char} (h : '\n' ∉ s) : normalizeBreaks s = s := by
  unfold normalizeBreaks blankSub
  rw [blankSubF_id s.length s h]
  exact pyReplace_not_mem _ (List.mem_cons_self '\n' []) h

/-- C9: on an already-rendered pair — backtick-free subject; body free of
    asterisks, backticks, newlines and markdown-link matches — the full
    stage 1-4 pipeline (placeholder substitution, bold, italic, links,
    line-break normalization) with no auxiliary lists returns the pair
    unchanged. -/
theorem C9_idempotent (subject body : List Char)
    (h1 : btk ∉ subject) (h2 : btk ∉ body) (h3 : '*' ∉ body) (h4 : '\n' ∉ body)
    (h5 : hasLink body = false) :
    renderBody (Cell.str (String.mk body)) (Cell.str (String.mk subject))
      none none none = (body, subject) := by
  have hcb : applyRepl body = body := foldClean replacements body h2
  have hcs : applyRepl subject = subject := foldClean replacements subject h1
  have hconv : convert_variables (Cell.str (String.mk body))
      (Cell.str (String.mk subject)) = (applyRepl body, applyRepl subject) := rfl
  unfold renderBody
  rw [hconv]
  dsimp only
  rw [hcb, hcs, process_bold_text_none_id h3, process_italic_text_none_id h3,
    process_links_none_id h5, normalizeBreaks_id h4]

/-- C9 witness: a concrete rendered pair is a fixed point of the pipeline. -/
theorem C9_idempotent_witness :
    renderBody (Cell.str (String.mk "<strong>Hi</strong> <em>there</em><br>".data))
      (Cell.str (String.mk "Quick question".data)) none none none =
      ("<strong>Hi</strong> <em>there</em><br>".data, "Quick question".data) :=
  C9_idempotent "Quick question".data "<strong>Hi</strong> <em>there</em><br>".data
    (by decide) (by decide) (by decide) (by decide) (by decide)

/- ===================== whole-compile abort lemmas ===================== -/

theorem compileRows_error : ∀ (rows : List Row) (acc : List SequenceStep),
    (∃ r ∈ rows, ∃ e, processRow r = .error e) →
    ∃ e, compileRows rows acc = .error e := by
  intro rows
  induction rows with
  | nil =>
    rintro acc ⟨r, hr, _⟩
    exact absurd hr (List.not_mem_nil r)
  | cons r rs ih =>
    rintro acc ⟨r', hr', e', he'⟩
    rcases List.mem_cons.mp hr' with rfl | hm
    · exact ⟨e', by simp [compileRows, he']⟩
    · cases hp : processRow r with
      | error e => exact ⟨e, by simp [compileRows, hp]⟩
      | ok v =>
        obtain ⟨n, d, vv⟩ := v
        have := ih (insertRow acc n d vv) ⟨r', hm, e', he'⟩
        simpa [compileRows, hp] using this

theorem pes_nil_of_err (rows : List Row)
    (h : ∃ r ∈ rows, ∃ e, processRow r = .error e) :
    process_email_sequences rows = [] := by
  obtain ⟨e, he⟩ := compileRows_error rows [] h
  simp [process_email_sequences, he]

theorem processRow_error_of_badSeq {r : Row} (h : seqNumberBad r = true) :
    ∃ e, processRow r = .error e := by
  cases hl : rowLookup r "seq_number" with
  | none => exact ⟨"KeyError: seq_number", by simp [processRow, hl]⟩
  | some c =>
    have hi : pyInt c = none := by
      unfold seqNumberBad at h
      rw [hl] at h
      exact Option.isNone_iff_eq_none.mp h
    exact ⟨"ValueError: invalid seq_number", by simp [processRow, hl, hi]⟩

/-- C3: any table containing a row whose seq_number is missing or rejected
    by int() makes the whole compile fail: process_email_sequences returns
    the empty list, never a partial result for the well-formed rows. -/
theorem C3_whole_compile_fails (rows : List Row)
    (h : ∃ r ∈ rows, seqNumberBad r = true) :
    process_email_sequences rows = [] := by
  obtain ⟨r, hr, hbad⟩ := h
  exact pes_nil_of_err rows ⟨r, hr, processRow_error_of_badSeq hbad⟩

/-- C3 witness: one good row plus one row with non-numeric seq_number
    compiles to zero SequenceStep entries. -/
theorem C3_whole_compile_fails_witness :
    process_email_sequences
      [[("seq_number", Cell.int 1), ("seq_delay_details", Cell.int 2)],
       [("seq_number", Cell.str "three!")]] = [] :=
  C3_whole_compile_fails _
    ⟨[("seq_number", Cell.str "three!")], by decide, by decide⟩

theorem processRow_error_of_delay_nan {r : Row}
    (hd : rowLookup r "seq_delay_details" = some Cell.nan) :
    ∃ e, processRow r = .error e := by
  cases hl : rowLookup r "seq_number" with
  | none => exact ⟨"KeyError: seq_number", by simp [processRow, hl]⟩
  | some c =>
    cases hi : pyInt c with
    | none => exact ⟨"ValueError: invalid seq_number", by simp [processRow, hl, hi]⟩
    | some n =>
      have hget : rowGet r "seq_delay_details" (Cell.int 0) = Cell.nan := by
        simp [rowGet, hd]
      have hnan : pyInt Cell.nan = none := rfl
      exact ⟨"ValueError: invalid seq_delay_details",
        by simp [processRow, hl, hi, hget, hnan]⟩

/-- C10: a present-but-blank (NaN) seq_delay_details cell in any row aborts
    the whole compile to the empty list (int(nan) raises), while a row whose
    seq_delay_details column is missing altogether gets the default delay 0
    and compiles. -/
theorem C10_blank_delay :
    (∀ (rows : List Row) (r : Row), r ∈ rows →
      rowLookup r "seq_delay_details" = some Cell.nan →
      process_email_sequences rows = []) ∧
    (process_email_sequences
      [[("seq_number", Cell.int 4), ("variant_label", Cell.str "A")]]).map stepSig =
      [(4, 0, 1)] := by
  constructor
  · intro rows r hr hd
    exact pes_nil_of_err rows ⟨r, hr, processRow_error_of_delay_nan hd⟩
  · decide

/-- C10 witness: a concrete row with a NaN seq_delay_details cell makes the
    compile return the empty list. -/
theorem C10_blank_delay_witness :
    process_email_sequences
      [[("seq_number", Cell.int 1), ("seq_delay_details", Cell.nan)]] = [] :=
  C10_blank_delay.1 _ [("seq_number", Cell.int 1), ("seq_delay_details", Cell.nan)]
    (by decide) (by decide)
